import Mathlib

/-!
Verification of the githubfs virtual-tree engine.

Shallow embedding, translated from the Go sources:
  * `file`, `fileOpt`, `newFile`, `withContent`/`withSize`/... (filehandle.go, file part)
  * `fileHandle` and its `Stat`/`Read`/`Close` (filehandle.go)
  * `dirHandle` and its `Stat`/`Read`/`Close`/`ReadDir` (dirhandle.go)
  * `dir`, `fetch`, `find`, `makeDirs`, `addFile`, `newDirHandle`, `tarballToTree`,
    `tarSplitPath` (dir.go)
  * `getGitDirV3_3` (ghe_v3.3.go)

Go pointer/mutation semantics are rendered by explicit state passing: every
operation that mutates the tree in Go returns the updated tree value here.
Machine integers are modelled as `Int`/`Nat`; byte buffers as `List Nat`;
`map[string]any` children maps as association lists with insert-or-replace
writes (`setChild`), which mirrors the observable get/set behaviour of the map.
A directory's deferred-fetch capability (`fetchFn`) is modelled extensionally
by its outcome: either it fails with an error, or it populates the directory
with a given list of children.
-/

namespace Githubfs

/-- Go fs.ModeDir bit (1 <<< 31). -/
def modeDir : Nat := 2147483648

/-- Mirrors `fileInfo` (githubfs.go): name, size, modTime, mode. -/
structure FileInfo where
  name : String
  size : Int
  modTime : Int
  mode : Nat
deriving Repr, DecidableEq

/-- Mirrors the `file` struct (file part of filehandle.go): owner/repo context,
info, remote url, inline content bytes. -/
structure FileData where
  owner : String
  repo : String
  info : FileInfo
  url : String
  content : List Nat
deriving Repr, DecidableEq

/-- Mirrors the `dir` struct metadata fields (dir.go): ownership context,
name, branch, path segments, permissions, modification time. -/
structure DirMeta where
  org : String
  repo : String
  name : String
  branch : String
  path : List String
  perm : Nat
  modTime : Int
deriving Repr, DecidableEq

/-- Remote tree-entry mode constants (githubfs.go). -/
def ghModeFile : Nat := 0o100644
def ghModeExecutable : Nat := 0o100755
def ghModeSubmodule : Nat := 0o160000
def ghModeSymlink : Nat := 0o120000
def ghModeDirectory : Nat := 0o040000

/-- File-construction options (file part of filehandle.go), as data so that
lists of options can be quantified over.  `applyFileOpt` gives each its
meaning. -/
inductive FileOptD where
  | content (c : List Nat)
  | url (u : String)
  | modTime (t : Int)
  | mode (m : Nat)
  | size (s : Int)
deriving Repr, DecidableEq

/-- Applies one option, mirroring withContent / withUrl / withModTime /
withMode / withSize.  Note withSize's guard is on the LENGTH of the current
content being zero (`int64(len(f.content)) == 0`), exactly as in the source. -/
def applyFileOpt (f : FileData) (o : FileOptD) : FileData :=
  match o with
  | .content c => { f with content := c, info := { f.info with size := (c.length : Int) } }
  | .url u => { f with url := u }
  | .modTime t => { f with info := { f.info with modTime := t } }
  | .mode m => { f with info := { f.info with mode := m } }
  | .size s =>
      if (f.content.length : Int) = 0 then { f with info := { f.info with size := s } } else f

/-- Mirrors `newFile(parent, name, opts...)`: defaults (mode 0644, zero size,
owner/repo from the parent), then the options applied in order. -/
def newFile (owner repo name : String) (opts : List FileOptD) : FileData :=
  opts.foldl applyFileOpt
    { owner := owner, repo := repo,
      info := { name := name, size := 0, modTime := 0, mode := 0o644 },
      url := "", content := [] }

/-- Tree node: the `any` children values of a `dir` are either `*file` or
`*dir`.  The dir case carries its metadata, its deferred-fetch capability
(`none` when no fetchFn is attached; otherwise the outcome the capability
produces when invoked: an error, or a list of children it populates), and its
children map. -/
inductive Node where
  | file (fd : FileData) : Node
  | dir (meta : DirMeta) (cap : Option (Except String (List (String × Node))))
        (children : List (String × Node)) : Node

abbrev Children := List (String × Node)
abbrev FetchCap := Option (Except String Children)

/-- A directory value outside the tree knot (the pattern-matched fields of a
`Node.dir`). -/
structure DirView where
  meta : DirMeta
  cap : FetchCap
  children : Children

def DirView.toNode (d : DirView) : Node := .dir d.meta d.cap d.children

def Node.asDir? : Node → Option DirView
  | .file _ => none
  | .dir m c ch => some ⟨m, c, ch⟩

/-- Children-map read: `d.children[name]`. -/
def getChild : Children → String → Option Node
  | [], _ => none
  | (k, v) :: rest, name => if k = name then some v else getChild rest name

/-- Children-map write: `d.children[name] = n` (replace or append). -/
def setChild : Children → String → Node → Children
  | [], name, n => [(name, n)]
  | (k, v) :: rest, name, n =>
      if k = name then (k, n) :: rest else (k, v) :: setChild rest name n

/-- A sequence of map writes, as performed by a fetch capability populating a
directory. -/
def insertAll (cs : Children) (new : Children) : Children :=
  new.foldl (fun acc kn => setChild acc kn.1 kn.2) cs

/-- The error wrapping performed by `dir.fetch` on a failed fetchFn. -/
def wrapFetchErr (e : String) : String :=
  "githubfs filesystem error cannot fetch a directory: " ++ e

/-- Result of `dir.fetch`: the directory afterwards, the returned error if
any, and whether the capability (fetchFn) was actually invoked. -/
structure FetchResult where
  dir : DirView
  err : Option String
  invoked : Bool

/-- Mirrors `dir.fetch` (dir.go): no capability means a no-op success;
a capability is invoked, and on success it populates the children and the
capability is cleared (`d.fetchFn = nil`); on failure a wrapped error is
returned and the capability is left attached (the directory is unchanged). -/
def DirView.fetch (d : DirView) : FetchResult :=
  match d.cap with
  | none => ⟨d, none, false⟩
  | some (.error e) => ⟨d, some (wrapFetchErr e), true⟩
  | some (.ok newChildren) =>
      ⟨{ d with cap := none, children := insertAll d.children newChildren }, none, true⟩

/-- Errors surfaced by resolution and import, mirroring the wrapped Go error
values: `notExist s` is the "directory s not found: fs.ErrNotExist" error,
`fetchFailed e` the wrapped fetch error, `readFail e` a tar-reader error, and
`castFail` stands for the `next.(*dir)` type-assertion panic in makeDirs. -/
inductive GfsError where
  | notExist (segment : String)
  | fetchFailed (cause : String)
  | readFail (cause : String)
  | castFail
deriving Repr, DecidableEq

/-- Output of `dir.find`: the Go return value (`(*dir, *file, error)`), the
directory subtree after the walk's in-place fetch mutations, and the trace of
depths (0 = the starting directory) at which `fetch()` was called, in call
order. -/
structure FindOut where
  res : Except GfsError (DirView × Option FileData)
  tree : DirView
  trace : List Nat

/-- Mirrors `dir.find(path)` (dir.go) on the already-split segment list:
for each segment, fetch the current directory, look the segment up, fail with
NotExist when absent, return (owner, file) for a file at the last segment,
fail with NotExist for a file earlier, descend into directories; after the
loop, fetch the terminal directory once more and return it with no file. -/
def DirView.find (d : DirView) (parts : List String) : FindOut :=
  match parts with
  | [] =>
    let r := d.fetch
    match r.err with
    | some e => ⟨.error (.fetchFailed e), r.dir, [0]⟩
    | none => ⟨.ok (r.dir, none), r.dir, [0]⟩
  | part :: rest =>
    let r := d.fetch
    match r.err with
    | some e => ⟨.error (.fetchFailed e), r.dir, [0]⟩
    | none =>
      match getChild r.dir.children part with
      | none => ⟨.error (.notExist part), r.dir, [0]⟩
      | some (.file fd) =>
        if rest = [] then ⟨.ok (r.dir, some fd), r.dir, [0]⟩
        else ⟨.error (.notExist part), r.dir, [0]⟩
      | some (.dir m c ch) =>
        let sub := DirView.find ⟨m, c, ch⟩ rest
        ⟨sub.res,
         { r.dir with children := setChild r.dir.children part sub.tree.toNode },
         0 :: sub.trace.map (· + 1)⟩

/-! Path-string helpers, mirroring the Go standard library functions used by
dir.go (`strings.Split`/`Join`/`TrimSuffix`, `filepath.Split`/`Clean`/`Base`)
on slash-separated paths. -/

/-- Splits a character sequence at every slash. -/
def splitCharsOnSlash : List Char → List (List Char)
  | [] => [[]]
  | c :: rest =>
    let r := splitCharsOnSlash rest
    if c = '/' then [] :: r
    else
      match r with
      | [] => [[c]]
      | g :: gs => (c :: g) :: gs

/-- `strings.Split(s, "/")`.  Like Go, splitting the empty string yields one
empty segment.  (Implemented by structural recursion over the characters so
that concrete path computations evaluate inside the kernel.) -/
def splitSlash (s : String) : List String :=
  (splitCharsOnSlash s.data).map String.mk

/-- `strings.Join(parts, "/")`. -/
def joinSlash (parts : List String) : String :=
  String.mk (List.intercalate ['/'] (parts.map String.data))

/-- `strings.TrimSuffix(s, "/")`: removes one trailing slash if present. -/
def trimSlashSuffix (s : String) : String :=
  match s.data.getLast? with
  | some '/' => String.mk s.data.dropLast
  | _ => s

/-- Mirrors `tarSplitPath` (dir.go): trim a trailing slash, split on `/`, and
drop the leading (archive top-level) component. -/
def tarSplitPath (path : String) : List String :=
  (splitSlash (trimSlashSuffix path)).drop 1

/-- `filepath.Split(p)`: splits after the final slash into (directory part
including the trailing slash, file part). -/
def filepathSplit (p : String) : String × String :=
  match (splitSlash p).reverse with
  | [] => ("", p)
  | f :: [] => ("", f)
  | f :: restRev => (joinSlash restRev.reverse ++ "/", f)

/-- Element loop of `filepath.Clean`: skips empty and `.` elements, resolves
`..` against the output stack (kept reversed), keeping `..` only at the start
of a relative path. -/
def cleanLoop (rooted : Bool) : List String → List String → List String
  | out, [] => out.reverse
  | out, e :: rest =>
    if e = "" || e = "." then cleanLoop rooted out rest
    else if e = ".." then
      match out with
      | [] => if rooted then cleanLoop rooted [] rest else cleanLoop rooted [".."] rest
      | o :: os =>
          if o = ".." then cleanLoop rooted (".." :: o :: os) rest
          else cleanLoop rooted os rest
    else cleanLoop rooted (e :: out) rest

/-- `filepath.Clean(p)` for slash-separated paths. -/
def filepathClean (p : String) : String :=
  if p = "" then "."
  else
    let rooted := match p.data with | '/' :: _ => true | _ => false
    let cleaned := cleanLoop rooted [] (splitSlash p)
    if rooted then "/" ++ joinSlash cleaned
    else if cleaned = [] then "." else joinSlash cleaned

/-- `filepath.Base(p)`: the last non-empty element; "/" for all-slash paths,
"." for the empty path. -/
def filepathBase (p : String) : String :=
  match ((splitSlash p).filter (fun x => x ≠ "")).reverse with
  | [] => if p = "" then "." else "/"
  | b :: _ => b

/-! Tree construction and update operations (dir.go). -/

/-- The metadata of a directory created by `d.newDir(name, ...)`: ownership
inherited from the parent, path extended by the name, mode `fs.ModeDir|0755`,
modification time from withDirModTime (zero when absent). -/
def childDirMeta (m : DirMeta) (name : String) (modTime : Int) : DirMeta :=
  { org := m.org, repo := m.repo, name := name, branch := m.branch,
    path := m.path ++ [name], perm := modeDir ||| 0o755, modTime := modTime }

/-- Mirrors `dir.addFile(name, opts...)`: builds the file with `newFile` and
writes it into the children map. -/
def DirView.addFile (d : DirView) (name : String) (opts : List FileOptD) : DirView :=
  { d with children := setChild d.children name (.file (newFile d.meta.org d.meta.repo name opts)) }

/-- Mirrors `dir.makeDirs(parts, withDirModTime t)` followed by an operation
`k` on the returned leaf directory: descends along `parts`, creating missing
directories (with the given modification time, no fetch capability), and
applies `k` at the leaf.  Returns `none` when an intermediate child is a file
(where Go's `next.(*dir)` type assertion would panic). -/
def makeDirsAnd (d : DirView) (parts : List String) (modTime : Int)
    (k : DirView → DirView) : Option DirView :=
  match parts with
  | [] => some (k d)
  | p :: rest =>
    match getChild d.children p with
    | some (.dir m c ch) =>
        (makeDirsAnd ⟨m, c, ch⟩ rest modTime k).map fun sub =>
          { d with children := setChild d.children p sub.toNode }
    | some (.file _) => none
    | none =>
        let newChild : DirView := ⟨childDirMeta d.meta p modTime, none, []⟩
        (makeDirsAnd newChild rest modTime k).map fun sub =>
          { d with children := setChild d.children p sub.toNode }

/-- Applies `f` to the directory at `path` below `d`, rebuilding the spine;
`none` when `path` does not lead to a directory. -/
def updateDirAt (d : DirView) (path : List String) (f : DirView → Option DirView) :
    Option DirView :=
  match path with
  | [] => f d
  | p :: rest =>
    match getChild d.children p with
    | some (.dir m c ch) =>
        (updateDirAt ⟨m, c, ch⟩ rest f).map fun sub =>
          { d with children := setChild d.children p sub.toNode }
    | _ => none

/-- The `d.fetchFn = nil` write that opens `dir.tarballToTree`, expressed on
the global tree: clears the capability of the directory at `dPath`. -/
def clearCapAt (root : DirView) (dPath : List String) : DirView :=
  (updateDirAt root dPath (fun dd => some { dd with cap := none })).getD root

/-! The tarball importer (dir.go, `tarballToTree`). -/

/-- Tar entry kinds used by the importer; `other` covers every typeflag the
switch statement ignores. -/
inductive TarType where
  | reg | dir | link | symlink | other
deriving Repr, DecidableEq

/-- One archive entry: typeflag, name, link target, modification time, and
(for regular files) the content bytes read from the stream. -/
structure TarEntry where
  typeflag : TarType
  name : String
  linkname : String
  modTime : Int
  content : List Nat
deriving Repr, DecidableEq

/-- An archive stream: the entries the tar reader yields, then either a clean
end of archive or a reader error (malformed archive). -/
structure Tarball where
  entries : List TarEntry
  readErr : Option String
deriving Repr, DecidableEq

/-- The absolute (tree-rooted) path of a link entry's target, as computed by
the link case of `tarballToTree`: the import directory's full path, then the
entry's stripped directory portion, then the recorded link target, cleaned. -/
def linkTarget (dPath : List String) (e : TarEntry) : String :=
  filepathClean
    (joinSlash dPath ++ "/" ++ joinSlash (tarSplitPath (filepathSplit e.name).1)
      ++ "/" ++ e.linkname)

/-- The absolute (tree-rooted) path of the link entry itself. -/
def linkName (dPath : List String) (e : TarEntry) : String :=
  filepathClean (joinSlash dPath ++ "/" ++ joinSlash (tarSplitPath e.name))

/-- Processes one tar entry against the global tree, the import directory
being at `dPath`; returns the error (if any) together with the tree after the
entry's in-place mutations, mirroring the body of tarballToTree's loop. -/
def processEntry (root : DirView) (dPath : List String) (e : TarEntry) :
    Option GfsError × DirView :=
  match e.typeflag with
  | .reg =>
    let path := (filepathSplit e.name).1
    let filename := (filepathSplit e.name).2
    let parts := tarSplitPath path
    match updateDirAt root dPath (fun d =>
        makeDirsAnd d parts e.modTime
          (fun leaf => leaf.addFile filename [.modTime e.modTime, .content e.content])) with
    | some r => (none, r)
    | none => (some .castFail, root)
  | .dir =>
    let parts := tarSplitPath e.name
    if parts = [] then (none, root)
    else
      match updateDirAt root dPath (fun d => makeDirsAnd d parts e.modTime id) with
      | some r => (none, r)
      | none => (some .castFail, root)
  | .link | .symlink =>
    let target := linkTarget dPath e
    let lname := linkName dPath e
    let linknameFile := (filepathSplit lname).2
    let linknamePath := filepathClean (filepathSplit lname).1
    let f1 := root.find (splitSlash target)
    (match f1.res with
     | .error err => (some err, f1.tree)
     | .ok (targetDir, targetFile) =>
       let root1 := f1.tree
       let f2 := root1.find (splitSlash linknamePath)
       match f2.res with
       | .error err => (some err, f2.tree)
       | .ok (_, lfile) =>
         let root2 := f2.tree
         let loc := if lfile.isSome then (splitSlash linknamePath).dropLast
                    else splitSlash linknamePath
         let ins : DirView → Option DirView := fun dd =>
           match targetFile with
           | some tf => some { dd with children := setChild dd.children (filepathBase lname) (.file tf) }
           | none => some { dd with children := setChild dd.children linknameFile targetDir.toNode }
         match updateDirAt root2 loc ins with
         | some r => (none, r)
         | none => (some .castFail, root2))
  | .other => (none, root)

/-- Sequential entry processing; the first error aborts, the tree keeping the
mutations made up to that point. -/
def processEntries (dPath : List String) : DirView → List TarEntry → Option GfsError × DirView
  | root, [] => (none, root)
  | root, e :: rest =>
    match processEntry root dPath e with
    | (some err, st) => (some err, st)
    | (none, st) => processEntries dPath st rest

/-- Mirrors `dir.tarballToTree(tarball)`: the import directory's fetchFn is
cleared first, unconditionally; then the entries are processed in order; a
reader error surfaces after the entries read before it. -/
def tarballToTree (root : DirView) (dPath : List String) (tb : Tarball) :
    Option GfsError × DirView :=
  let root0 := clearCapAt root dPath
  match processEntries dPath root0 tb.entries with
  | (some err, st) => (some err, st)
  | (none, st) =>
    match tb.readErr with
    | some msg => (some (.readFail msg), st)
    | none => (none, st)

/-! Capability-freedom: no directory anywhere in a tree has an attached
fetch capability.  Used to express that after a bulk import nothing is left
to (re-)fetch. -/

mutual

def Node.capFreeB : Node → Bool
  | .file _ => true
  | .dir _ cap cs => cap.isNone && capFreeChildrenB cs

def capFreeChildrenB : Children → Bool
  | [] => true
  | (_, n) :: rest => n.capFreeB && capFreeChildrenB rest

end

def DirView.capFreeB (d : DirView) : Bool := d.toNode.capFreeB

/-- The capability of the directory at `path` under `root`: `none` when the
path does not lead to a directory. -/
def capAt (root : DirView) (path : List String) : Option FetchCap :=
  match path with
  | [] => some root.cap
  | p :: rest =>
    match getChild root.children p with
    | some (.dir m c ch) => capAt ⟨m, c, ch⟩ rest
    | _ => none

/-! The per-directory listing fetch (ghe_v3.3.go, `getGitDirV3_3`). -/

/-- One entry of the remote tree listing: name and POSIX-style mode value. -/
structure TreeEntry where
  name : String
  mode : Nat
deriving Repr, DecidableEq

/-- Mirrors the entry loop of `getGitDirV3_3`: a regular file adds a File
with the computed raw-download url and default mode 0644; an executable adds
one with mode 0755; a directory adds an empty subdirectory carrying a fetch
capability (the recursive getGitDirV3_3 closure, represented here by the
abstract assignment `childCap`); submodules and symlinks are skipped (TODO in
the source); any other mode value aborts the fetch with the
"unknown file mode" error. -/
def getGitDirV3_3 (rawUrl : String) (childCap : String → FetchCap) :
    DirView → List TreeEntry → Except String DirView
  | d, [] => .ok d
  | d, e :: rest =>
    let url := joinSlash [rawUrl, d.meta.org, d.meta.repo, d.meta.branch,
                          joinSlash d.meta.path, e.name]
    if e.mode = ghModeFile then
      getGitDirV3_3 rawUrl childCap (d.addFile e.name [.url url]) rest
    else if e.mode = ghModeExecutable then
      getGitDirV3_3 rawUrl childCap (d.addFile e.name [.url url, .mode 0o755]) rest
    else if e.mode = ghModeDirectory then
      let sub : Node := .dir (childDirMeta d.meta e.name 0) (childCap e.name) []
      getGitDirV3_3 rawUrl childCap { d with children := setChild d.children e.name sub } rest
    else if e.mode = ghModeSubmodule then
      getGitDirV3_3 rawUrl childCap d rest
    else if e.mode = ghModeSymlink then
      getGitDirV3_3 rawUrl childCap d rest
    else
      .error "unknown file mode"

/-- The mode values the entry loop recognizes (including the two it skips). -/
def recognizedMode (m : Nat) : Bool :=
  m = ghModeFile || m = ghModeExecutable || m = ghModeDirectory ||
  m = ghModeSubmodule || m = ghModeSymlink

/-! The external handles.  `dirHandle` (dirhandle.go) and `fileHandle`
(filehandle.go) are the authoritative versions with a `closed` flag. -/

/-- Handle-level errors: `closed` is fs.ErrClosed, `eof` is io.EOF,
`isDirectory` the "is a directory not a file" error. -/
inductive HErr where
  | closed | eof | isDirectory
deriving Repr, DecidableEq

/-- A directory entry as held by a dirHandle (a dirEntry wrapping a
fs.FileInfo). -/
abbrev DirEnt := FileInfo

/-- Mirrors `dirHandle` (dirhandle.go): snapshot info, snapshot entry
sequence, read cursor, closed flag. -/
structure DirHandle where
  info : FileInfo
  entries : List DirEnt
  index : Nat
  closed : Bool
deriving Repr, DecidableEq

/-- The `for n > 0 && d.index < l` loop of dirHandle.ReadDir: collects
entries, decrementing `n` and advancing the cursor; returns the collected
batch and the final values of `n` and the cursor. -/
def readDirLoop (entries : List DirEnt) : Nat → Nat → List DirEnt × Nat × Nat
  | 0, idx => ([], 0, idx)
  | n + 1, idx =>
    if h : idx < entries.length then
      let r := readDirLoop entries n (idx + 1)
      (entries.get ⟨idx, h⟩ :: r.1, r.2.1, r.2.2)
    else ([], n + 1, idx)

/-- Result of one dirHandle.ReadDir call: the returned batch, the returned
error, and the handle afterwards. -/
structure RdOut where
  out : List DirEnt
  err : Option HErr
  post : DirHandle
deriving Repr, DecidableEq

/-- Mirrors `dirHandle.ReadDir(n)` (dirhandle.go): fail with Closed on a
closed handle; an empty remainder returns io.EOF immediately; `n <= 0`
returns the whole remainder and sets the cursor to `l - 1`; `n > 0` runs the
collection loop and returns io.EOF exactly when the loop ran out of entries
before `n` reached zero. -/
def DirHandle.readDir (d : DirHandle) (n : Int) : RdOut :=
  if d.closed then ⟨[], some .closed, d⟩
  else
    let haveE := d.entries.drop d.index
    if haveE.length = 0 then ⟨haveE, some .eof, d⟩
    else
      let l := d.entries.length
      if n ≤ 0 then ⟨haveE, none, { d with index := l - 1 }⟩
      else
        let r := readDirLoop d.entries n.toNat d.index
        let d' := { d with index := r.2.2 }
        if r.2.1 = 0 then ⟨r.1, none, d'⟩ else ⟨r.1, some .eof, d'⟩

/-- Mirrors `dirHandle.Stat`. -/
def DirHandle.stat (d : DirHandle) : Except HErr FileInfo :=
  if d.closed then .error .closed else .ok d.info

/-- Mirrors `dirHandle.Read`: always an error; Closed takes precedence. -/
def DirHandle.readBytes (d : DirHandle) : Nat × Option HErr :=
  if d.closed then (0, some .closed) else (0, some .isDirectory)

/-- Mirrors `dirHandle.Close`. -/
def DirHandle.close (d : DirHandle) : Except HErr DirHandle :=
  if d.closed then .error .closed else .ok { d with closed := true }

/-- Successive ReadDir calls on one handle, threading the cursor; yields each
call's batch and error. -/
def runReads : DirHandle → List Int → List (List DirEnt × Option HErr)
  | _, [] => []
  | h, n :: rest =>
    let r := h.readDir n
    (r.out, r.err) :: runReads r.post rest

/-- Mirrors `fileHandle` (filehandle.go): snapshot info, buffered content
(remaining unread bytes of the bytes.Buffer), closed flag. -/
structure FileHandle where
  info : FileInfo
  content : List Nat
  closed : Bool
deriving Repr, DecidableEq

/-- Mirrors `newFileHandle(info, content)`. -/
def newFileHandle (info : FileInfo) (content : List Nat) : FileHandle :=
  ⟨info, content, false⟩

/-- Mirrors `fileHandle.Stat`. -/
def FileHandle.stat (f : FileHandle) : Except HErr FileInfo :=
  if f.closed then .error .closed else .ok f.info

/-- Mirrors `fileHandle.Read` into a buffer of length `blen`, with
bytes.Buffer semantics: an exhausted buffer yields (0, io.EOF) unless the
destination is empty; otherwise up to `blen` bytes are consumed. -/
def FileHandle.read (f : FileHandle) (blen : Nat) : (Nat × Option HErr) × FileHandle :=
  if f.closed then ((0, some .closed), f)
  else if f.content.length = 0 then
    (if blen = 0 then ((0, none), f) else ((0, some .eof), f))
  else
    let n := min blen f.content.length
    ((n, none), { f with content := f.content.drop n })

/-- Mirrors `fileHandle.Close`: marks closed and releases the buffer. -/
def FileHandle.close (f : FileHandle) : Except HErr FileHandle :=
  if f.closed then .error .closed else .ok { f with closed := true, content := [] }

/-! Snapshot model for dir.newDirHandle (dir.go) and file.toDirEntry
(filehandle.go).  In Go, `file.toDirEntry` returns `&dirEntry{info: &f.info}`
— a pointer INTO the file object — while `dir.toDirEntry` builds a fresh
`fileInfo` value.  To reason about that aliasing, file-info cells live in an
explicit store addressed by file id, a directory's file children hold ids,
and a snapshot entry is either a reference into the store (file child) or a
copied value (directory child). -/

/-- A child of a directory, as seen by newDirHandle: a `*file` (identified by
the id of its info cell in the store) or a `*dir` (its metadata). -/
inductive SnapChild where
  | fileRef (id : Nat)
  | subdir (m : DirMeta)
deriving Repr, DecidableEq

/-- A directory entry held by an open handle: `byRef id` mirrors
`dirEntry{info: &f.info}` (file children), `byVal info` mirrors the fresh
`fileInfo` built by `dir.toDirEntry` (directory children). -/
inductive SnapEntry where
  | byRef (id : Nat)
  | byVal (info : FileInfo)
deriving Repr, DecidableEq

/-- Mirrors `dir.toFileInfo`: name, fixed size 4096, modTime, perm. -/
def dirToFileInfo (m : DirMeta) : FileInfo :=
  { name := m.name, size := 4096, modTime := m.modTime, mode := m.perm }

/-- Mirrors the entry-materialization loop of `dir.newDirHandle`: each file
child contributes a by-reference entry, each directory child a by-value copy
of its stat info taken now. -/
def snapEntries (children : List SnapChild) : List SnapEntry :=
  children.map fun c =>
    match c with
    | .fileRef id => .byRef id
    | .subdir m => .byVal (dirToFileInfo m)

/-- What an entry of an open handle reports, given the current store of file
info cells: a by-reference entry reads the cell NOW, a by-value entry returns
the copy taken at snapshot time. -/
def entryInfo (store : Nat → FileInfo) : SnapEntry → FileInfo
  | .byRef id => store id
  | .byVal fi => fi

/-- A store update, e.g. `f.info.size = int64(len(bod))` performed by
`file.newFileHandle` after downloading content. -/
def updStore (store : Nat → FileInfo) (id : Nat) (v : FileInfo) : Nat → FileInfo :=
  fun j => if j = id then v else store j

/-! Concrete fixtures: a small tree with directories `1/2` (as built by
`newDir(gfs, ".").newDir("1").newDir("2")` in the tests) and the archives of
the symlink examples. -/

/-- Root directory metadata (`newDir(gfs, ".")`). -/
def exMetaRoot : DirMeta :=
  { org := "", repo := "", name := ".", branch := "", path := [],
    perm := modeDir ||| 0o755, modTime := 0 }

/-- Metadata of a plain descendant directory created by `newDir`. -/
def exMeta (name : String) (path : List String) : DirMeta :=
  { org := "", repo := "", name := name, branch := "", path := path,
    perm := modeDir ||| 0o755, modTime := 0 }

def exDir2 : Node := .dir (exMeta "2" ["1", "2"]) none []

def exDir1 : Node := .dir (exMeta "1" ["1"]) none [("2", exDir2)]

/-- The tree `./1/2` with `2` empty. -/
def exRoot : DirView := ⟨exMetaRoot, none, [("1", exDir1)]⟩

/-- An archive with top-level directory `2`: file `a` (content "a\n"),
directory `c`, and a symlink `c/w` whose recorded target is `../a`. -/
def exTarball : Tarball :=
  { entries := [
      ⟨.reg, "2/a", "", 5, [97, 10]⟩,
      ⟨.dir, "2/c/", "", 5, []⟩,
      ⟨.symlink, "2/c/w", "../a", 5, []⟩],
    readErr := none }

/-- The tree after importing `exTarball` under `1/2`. -/
def exImported : DirView := (tarballToTree exRoot ["1", "2"] exTarball).2

/-- An archive whose only entry is a symlink with an unresolvable target
(nothing named `a` exists under `1/2`). -/
def exBadTarball : Tarball :=
  { entries := [⟨.symlink, "2/c/w", "../a", 5, []⟩], readErr := none }

/-- The file component of a resolver outcome. -/
def foundFile (fo : FindOut) : Option FileData :=
  match fo.res with
  | .ok (_, f) => f
  | .error _ => none

/-- Stat info of a directory handle fixture. -/
def exInfoD : FileInfo := ⟨"d", 4096, 0, modeDir⟩

/-- A directory entry named "a". -/
def exEntA : DirEnt := ⟨"a", 0, 0, 0⟩

/-- An open handle over a single entry. -/
def exHandleA : DirHandle := ⟨exInfoD, [exEntA], 0, false⟩

/-- An open handle over no entries. -/
def exHandleEmpty : DirHandle := ⟨exInfoD, [], 0, false⟩

/-- A store with one file-info cell of size 10. -/
def exStore : Nat → FileInfo := fun _ => ⟨"f", 10, 0, 0o644⟩

/-- The store after the file's content download updates its size to 20
(`f.info.size = int64(len(bod))` in file.newFileHandle). -/
def exStoreUpd : Nat → FileInfo := updStore exStore 0 ⟨"f", 20, 0, 0o644⟩

end Githubfs

namespace Githubfs

/-! ## Claim theorems -/

/-- Claim C2: `dir.fetch` with no capability attached succeeds as a no-op;
with a capability that succeeds, the children are populated and the
capability is cleared, so any later fetch is a no-op and the capability is
never invoked again; with a capability that fails, fetch returns the wrapped
error, the directory (and in particular its capability) is unchanged, and a
later fetch invokes the same capability again and fails the same way. -/
theorem fetch_capability_protocol (d : DirView) :
    (d.cap = none → d.fetch = ⟨d, none, false⟩)
    ∧ (∀ cs, d.cap = some (.ok cs) →
        d.fetch.err = none ∧ d.fetch.invoked = true ∧ d.fetch.dir.cap = none ∧
        d.fetch.dir.fetch = ⟨d.fetch.dir, none, false⟩)
    ∧ (∀ e, d.cap = some (.error e) →
        d.fetch = ⟨d, some (wrapFetchErr e), true⟩ ∧
        d.fetch.dir.cap = some (.error e) ∧
        (d.fetch.dir.fetch).err = some (wrapFetchErr e) ∧
        (d.fetch.dir.fetch).invoked = true) := by
  obtain ⟨m, c, ch⟩ := d
  rcases c with _ | (e | cs) <;>
    refine ⟨?_, ?_, ?_⟩ <;>
    simp_all [DirView.fetch]

/-- Witness for C2 at a directory whose capability fails with "boom". -/
theorem fetch_capability_protocol_witness :
    (⟨exMetaRoot, some (.error "boom"), []⟩ : DirView).fetch
        = ⟨⟨exMetaRoot, some (.error "boom"), []⟩, some (wrapFetchErr "boom"), true⟩
    ∧ (⟨exMetaRoot, some (.error "boom"), []⟩ : DirView).fetch.dir.cap
        = some (.error "boom") := by
  have h := (fetch_capability_protocol ⟨exMetaRoot, some (.error "boom"), []⟩).2.2 "boom" rfl
  exact ⟨h.1, h.2.1⟩

/-- Claim C7: once close() has succeeded on a file handle and on a directory
handle, every subsequent operation — stat, read (and ReadDir for the
directory handle), and a second close — fails with the Closed error, the
handles are left unchanged by those failing operations (so retrying any
number of times keeps failing the same way), and a read after close returns
zero bytes. -/
theorem closed_handle_ops (f : FileHandle) (d : DirHandle) (blen : Nat) (n : Int)
    (hf : f.closed = false) (hd : d.closed = false) :
    ∃ fc dc, f.close = .ok fc ∧ d.close = .ok dc
      ∧ fc.closed = true ∧ dc.closed = true
      ∧ fc.stat = .error .closed ∧ fc.read blen = ((0, some .closed), fc)
      ∧ fc.close = .error .closed
      ∧ dc.stat = .error .closed ∧ dc.readBytes = (0, some .closed)
      ∧ dc.readDir n = ⟨[], some .closed, dc⟩ ∧ dc.close = .error .closed := by
  refine ⟨{ f with closed := true, content := [] }, { d with closed := true },
    ?_, ?_, rfl, rfl, rfl, rfl, rfl, rfl, rfl, rfl, rfl⟩
  · simp [FileHandle.close, hf]
  · simp [DirHandle.close, hd]

/-- Witness for C7 on concrete open handles. -/
theorem closed_handle_ops_witness :
    ∃ fc dc, (newFileHandle ⟨"x", 1, 0, 0o644⟩ [7]).close = .ok fc
      ∧ (exHandleA.close = .ok dc)
      ∧ fc.closed = true ∧ dc.closed = true
      ∧ fc.stat = .error .closed ∧ fc.read 4 = ((0, some .closed), fc)
      ∧ fc.close = .error .closed
      ∧ dc.stat = .error .closed ∧ dc.readBytes = (0, some .closed)
      ∧ dc.readDir 1 = ⟨[], some .closed, dc⟩ ∧ dc.close = .error .closed :=
  closed_handle_ops (newFileHandle ⟨"x", 1, 0, 0o644⟩ [7]) exHandleA 4 1 rfl rfl

/-- Claim C3 (divergence witness): evaluating `dirHandle.ReadDir` at the
failing inputs.  With no remaining entries, ReadDir(0) returns io.EOF instead
of succeeding; with one remaining entry, ReadDir(0) returns it but leaves the
cursor at `len - 1 = 0` instead of the end, so an immediately following
ReadDir(0) finds and returns the same last entry again. -/
theorem readdir_unbounded_divergence :
    (exHandleEmpty.readDir 0).err = some HErr.eof
    ∧ (exHandleA.readDir 0).out = [exEntA]
    ∧ (exHandleA.readDir 0).post.index = 0
    ∧ ((exHandleA.readDir 0).post.readDir 0).out = [exEntA] := by
  decide

/-- Claim C6 (counterexample): a handle opened over a directory with one file
child holds a by-reference entry into the file's info cell; after the file's
size is updated (as file.newFileHandle does when it downloads content), the
already-open handle's entry reports the new size, contradicting the claim
that later metadata mutation does not change what the handle reports. -/
theorem snapshot_file_alias_counterexample :
    snapEntries [SnapChild.fileRef 0] = [SnapEntry.byRef 0]
    ∧ (entryInfo exStore (SnapEntry.byRef 0)).size = 10
    ∧ (entryInfo exStoreUpd (SnapEntry.byRef 0)).size = 20
    ∧ entryInfo exStoreUpd (SnapEntry.byRef 0) ≠ entryInfo exStore (SnapEntry.byRef 0) := by
  decide

/-- Claim C6 (amended): a directory handle's entry SEQUENCE is fixed at
creation, and a directory child's stat info is copied into the handle at
creation, so neither is affected by later mutation of the underlying
directory or its subdirectories; but a file child's stat info is held by
reference (`dirEntry{info: &f.info}`), so a later update of the file's info
cell — e.g. its size after a content download — IS visible through the
already-open handle. -/
theorem snapshot_amended (store : Nat → FileInfo) (id : Nat) (v : FileInfo)
    (children : List SnapChild) :
    (∀ fi, SnapEntry.byVal fi ∈ snapEntries children →
        entryInfo (updStore store id v) (.byVal fi) = entryInfo store (.byVal fi))
    ∧ (∀ i, SnapEntry.byRef i ∈ snapEntries children →
        entryInfo (updStore store id v) (.byRef i) = if i = id then v else store i)
    ∧ (∀ m, SnapChild.subdir m ∈ children →
        SnapEntry.byVal (dirToFileInfo m) ∈ snapEntries children)
    ∧ (∀ i, SnapChild.fileRef i ∈ children →
        SnapEntry.byRef i ∈ snapEntries children) := by
  refine ⟨fun fi _ => rfl, fun i _ => rfl, fun m hm => ?_, fun i hi => ?_⟩
  · exact List.mem_map.mpr ⟨.subdir m, hm, rfl⟩
  · exact List.mem_map.mpr ⟨.fileRef i, hi, rfl⟩

/-- Witness for C6 amended: the single file child of the counterexample
directory reports the updated store value. -/
theorem snapshot_amended_witness :
    SnapEntry.byRef 0 ∈ snapEntries [SnapChild.fileRef 0]
    ∧ entryInfo exStoreUpd (.byRef 0) = if 0 = 0 then (⟨"f", 20, 0, 0o644⟩ : FileInfo) else exStore 0 := by
  have h := snapshot_amended exStore 0 ⟨"f", 20, 0, 0o644⟩ [SnapChild.fileRef 0]
  exact ⟨h.2.2.2 0 (by decide), h.2.1 0 (h.2.2.2 0 (by decide))⟩

/-- Claim C8 (counterexample): with an EMPTY set-content option followed by a
set-size option, the constructed file's size is the set size, not the content
length 0 — the set-size option is not ignored when the content set is
empty. -/
theorem withSize_after_empty_content_counterexample :
    (newFile "o" "r" "f" [.content [], .size 5]).info.size = 5
    ∧ (5 : Int) ≠ (([] : List Nat).length : Int) := by
  decide

/-- After a file's content is non-empty and its size is the content length,
further non-content options preserve both (withSize's guard
`int64(len(f.content)) == 0` fails). -/
theorem foldl_applyFileOpt_content_preserved (post : List FileOptD) :
    ∀ f : FileData, f.content ≠ [] → (∀ c, FileOptD.content c ∉ post) →
    (post.foldl applyFileOpt f).content = f.content ∧
    (post.foldl applyFileOpt f).info.size = f.info.size := by
  induction post with
  | nil => intro f _ _; exact ⟨rfl, rfl⟩
  | cons o rest ih =>
    intro f hf hpost
    have hrest : ∀ c, FileOptD.content c ∉ rest := fun c hc =>
      hpost c (List.mem_cons_of_mem _ hc)
    have hstep : (applyFileOpt f o).content = f.content ∧
        (applyFileOpt f o).info.size = f.info.size := by
      cases o with
      | content c => exact absurd (List.mem_cons_self _ _) (hpost c)
      | url u => exact ⟨rfl, rfl⟩
      | modTime t => exact ⟨rfl, rfl⟩
      | mode m => exact ⟨rfl, rfl⟩
      | size s =>
        have hlen : ¬((f.content.length : Int) = 0) := by
          simpa using fun h => hf (List.length_eq_zero.mp h)
        simp [applyFileOpt, hlen]
    have := ih (applyFileOpt f o) (hstep.1 ▸ hf) hrest
    rw [List.foldl_cons]
    exact ⟨this.1.trans hstep.1, this.2.trans hstep.2⟩

/-- Claim C8 (amended): when a set-content option with NON-empty content
appears and no later set-content option follows it, the constructed file's
content is that content and its size is the content length, regardless of
set-size options anywhere in the list; with empty content a later set-size
option overrides the size (see the counterexample). -/
theorem content_derived_size_wins (owner repo name : String) (pre post : List FileOptD)
    (c : List Nat) (hc : c ≠ []) (hpost : ∀ c', FileOptD.content c' ∉ post) :
    (newFile owner repo name (pre ++ FileOptD.content c :: post)).content = c
    ∧ (newFile owner repo name (pre ++ FileOptD.content c :: post)).info.size
        = (c.length : Int) := by
  unfold newFile
  rw [List.foldl_append, List.foldl_cons]
  have hmid : (applyFileOpt (List.foldl applyFileOpt
      { owner := owner, repo := repo,
        info := { name := name, size := 0, modTime := 0, mode := 0o644 },
        url := "", content := [] } pre) (.content c)).content = c := rfl
  have hsz : (applyFileOpt (List.foldl applyFileOpt
      { owner := owner, repo := repo,
        info := { name := name, size := 0, modTime := 0, mode := 0o644 },
        url := "", content := [] } pre) (.content c)).info.size = (c.length : Int) := rfl
  have h := foldl_applyFileOpt_content_preserved post _ (hmid ▸ hc) hpost
  exact ⟨h.1.trans hmid, h.2.trans hsz⟩

/-- Witness for C8 amended at a concrete option list. -/
theorem content_derived_size_wins_witness :
    (newFile "o" "r" "n"
        ([FileOptD.size 7] ++ FileOptD.content [1, 2, 3] :: [FileOptD.size 9])).content
      = [1, 2, 3]
    ∧ (newFile "o" "r" "n"
        ([FileOptD.size 7] ++ FileOptD.content [1, 2, 3] :: [FileOptD.size 9])).info.size
      = ((3 : Nat) : Int) :=
  content_derived_size_wins "o" "r" "n" [.size 7] [.size 9] [1, 2, 3]
    (by decide) (by intro c' h; simp at h)

/-- Reading back the child just written. -/
theorem getChild_setChild_self (cs : Children) (name : String) (n : Node) :
    getChild (setChild cs name n) name = some n := by
  induction cs with
  | nil => simp [setChild, getChild]
  | cons kv rest ih =>
    by_cases h : kv.1 = name
    · simp [setChild, getChild, h]
    · simp [setChild, getChild, h, ih]

/-- Writing one child leaves the others unchanged. -/
theorem getChild_setChild_ne (cs : Children) (name k : String) (n : Node)
    (h : k ≠ name) : getChild (setChild cs name n) k = getChild cs k := by
  induction cs with
  | nil => simp [setChild, getChild, Ne.symm h]
  | cons kv rest ih =>
    obtain ⟨k1, v1⟩ := kv
    by_cases hk : k1 = name
    · subst hk
      simp [setChild, getChild, Ne.symm h]
    · by_cases hk2 : k1 = k
      · subst hk2
        simp [setChild, getChild, hk]
      · simp [setChild, getChild, hk, hk2, ih]

/-- The listing fetch processes a concatenation sequentially. -/
theorem getGitDirV3_3_append (u : String) (cc : String → FetchCap)
    (ys : List TreeEntry) :
    ∀ (xs : List TreeEntry) (d : DirView),
    getGitDirV3_3 u cc d (xs ++ ys)
      = (getGitDirV3_3 u cc d xs).bind (fun d1 => getGitDirV3_3 u cc d1 ys) := by
  intro xs
  induction xs with
  | nil => intro d; rfl
  | cons e rest ih =>
    intro d
    rw [List.cons_append]
    show getGitDirV3_3 u cc d (e :: (rest ++ ys)) = _
    rw [getGitDirV3_3, getGitDirV3_3]
    split_ifs <;> first
      | exact ih _
      | rfl

/-- A successful listing fetch leaves children it never names untouched. -/
theorem getGitDirV3_3_untouched (u : String) (cc : String → FetchCap) (nm : String) :
    ∀ (entries : List TreeEntry) (d d' : DirView),
    (∀ e ∈ entries, e.name ≠ nm) →
    getGitDirV3_3 u cc d entries = .ok d' →
    getChild d'.children nm = getChild d.children nm := by
  intro entries
  induction entries with
  | nil =>
    intro d d' _ h
    cases h
    rfl
  | cons e rest ih =>
    intro d d' hn h
    have hne : e.name ≠ nm := hn e (List.mem_cons_self _ _)
    have hrest : ∀ x ∈ rest, x.name ≠ nm := fun x hx => hn x (List.mem_cons_of_mem _ hx)
    rw [getGitDirV3_3] at h
    split_ifs at h
    all_goals first
      | cases h
      | exact ih _ _ hrest h
      | (rw [ih _ _ hrest h]
         simp only [DirView.addFile]
         exact getChild_setChild_ne _ _ _ _ (fun hh => hne hh.symm))

/-- An unrecognized mode value anywhere in the listing aborts the fetch with
the "unknown file mode" error. -/
theorem getGitDirV3_3_unrecognized (u : String) (cc : String → FetchCap) :
    ∀ (entries : List TreeEntry) (d : DirView),
    (∃ e ∈ entries, recognizedMode e.mode = false) →
    getGitDirV3_3 u cc d entries = .error "unknown file mode" := by
  intro entries
  induction entries with
  | nil => intro d h; simp at h
  | cons e rest ih =>
    intro d h
    rw [getGitDirV3_3]
    rcases h with ⟨x, hx, hxm⟩
    rcases List.mem_cons.mp hx with hhead | htail
    · subst hhead
      simp only [recognizedMode, Bool.or_eq_false_iff, decide_eq_false_iff_not] at hxm
      obtain ⟨⟨⟨⟨h1, h2⟩, h3⟩, h4⟩, h5⟩ := hxm
      simp [h1, h2, h3, h4, h5]
    · have hrest : ∃ y ∈ rest, recognizedMode y.mode = false := ⟨x, htail, hxm⟩
      split_ifs <;> first
        | exact ih _ hrest
        | rfl

/-- Claim C9: in the per-directory listing fetch, an entry with the
executable mode value 0100755 produces a File whose mode 0755 carries the
executable bits; an entry with the regular-file mode value 0100644 produces a
File with mode 0644, without them; and an entry whose mode matches none of
the recognized cases (file, executable, directory, submodule, symlink) makes
the whole fetch fail with the "unknown file mode" error instead of being
skipped. -/
theorem mode_mapping_spec (u : String) (cc : String → FetchCap) :
    (∀ (d d' : DirView) (pre post : List TreeEntry) (nm : String),
        (∀ e ∈ post, e.name ≠ nm) →
        getGitDirV3_3 u cc d (pre ++ ⟨nm, ghModeExecutable⟩ :: post) = .ok d' →
        ∃ fd, getChild d'.children nm = some (.file fd)
          ∧ fd.info.mode = 0o755 ∧ 0o755 &&& 0o111 = 0o111)
    ∧ (∀ (d d' : DirView) (pre post : List TreeEntry) (nm : String),
        (∀ e ∈ post, e.name ≠ nm) →
        getGitDirV3_3 u cc d (pre ++ ⟨nm, ghModeFile⟩ :: post) = .ok d' →
        ∃ fd, getChild d'.children nm = some (.file fd)
          ∧ fd.info.mode = 0o644 ∧ 0o644 &&& 0o111 = 0)
    ∧ (∀ (d : DirView) (entries : List TreeEntry),
        (∃ e ∈ entries, recognizedMode e.mode = false) →
        getGitDirV3_3 u cc d entries = .error "unknown file mode") := by
  refine ⟨?_, ?_, fun d entries => getGitDirV3_3_unrecognized u cc entries d⟩
  · intro d d' pre post nm hpost h
    rw [getGitDirV3_3_append] at h
    cases h1 : getGitDirV3_3 u cc d pre with
    | error e => rw [h1] at h; cases h
    | ok d1 =>
      rw [h1] at h
      have h2 : getGitDirV3_3 u cc d1 (⟨nm, ghModeExecutable⟩ :: post) = .ok d' := h
      rw [getGitDirV3_3] at h2
      split_ifs at h2 with c1 c2
      all_goals first
        | (have hfalse : ghModeExecutable = ghModeFile := c1
           exact absurd hfalse (by decide))
        | exact absurd rfl c2
        | (have huntouched := getGitDirV3_3_untouched u cc nm post _ _ hpost h2
           rw [huntouched]
           simp only [DirView.addFile]
           rw [getChild_setChild_self]
           exact ⟨_, rfl, rfl, by decide⟩)
  · intro d d' pre post nm hpost h
    rw [getGitDirV3_3_append] at h
    cases h1 : getGitDirV3_3 u cc d pre with
    | error e => rw [h1] at h; cases h
    | ok d1 =>
      rw [h1] at h
      have h2 : getGitDirV3_3 u cc d1 (⟨nm, ghModeFile⟩ :: post) = .ok d' := h
      rw [getGitDirV3_3] at h2
      split_ifs at h2 with c1
      all_goals first
        | exact absurd rfl c1
        | (have huntouched := getGitDirV3_3_untouched u cc nm post _ _ hpost h2
           rw [huntouched]
           simp only [DirView.addFile]
           rw [getChild_setChild_self]
           exact ⟨_, rfl, rfl, by decide⟩)

/-- Witness for C9: a one-entry executable listing and a one-entry
unrecognized listing, on the concrete fixture tree. -/
theorem mode_mapping_spec_witness :
    (∃ fd, getChild (exRoot.addFile "x"
          [.url (joinSlash ["u", "", "", "", "", "x"]), .mode 0o755]).children "x"
        = some (.file fd) ∧ fd.info.mode = 0o755 ∧ 0o755 &&& 0o111 = 0o111)
    ∧ getGitDirV3_3 "u" (fun _ => none) exRoot [⟨"y", 123⟩]
        = .error "unknown file mode" := by
  refine ⟨?_, ?_⟩
  · exact (mode_mapping_spec "u" (fun _ => none)).1 exRoot _ [] [] "x"
      (by intro e h; simp at h) rfl
  · exact (mode_mapping_spec "u" (fun _ => none)).2.2 exRoot [⟨"y", 123⟩]
      ⟨⟨"y", 123⟩, by decide, by decide⟩

/-- A successful fetch leaves no capability attached. -/
theorem fetch_ok_cap (d : DirView) (h : d.fetch.err = none) : d.fetch.dir.cap = none := by
  obtain ⟨m, c, ch⟩ := d
  rcases c with _ | (e | cs) <;> simp_all [DirView.fetch]

/-- Prepending a fresh depth to a shifted trace of consecutive depths. -/
theorem range_shift (n : Nat) : List.range (n + 1) = 0 :: (List.range n).map (· + 1) := by
  rw [List.range_succ_eq_map]

/-- Claim C1: for every starting directory and segment list, `dir.find`
calls `fetch()` exactly at the consecutive depths `0, 1, ..., k` of the
traversed path — each traversed directory once, in order, and never a
directory off the path (the trace equals `List.range` of its length, whose
entries index prefixes of the input path); when the walk ends at a file in
final position, the trace covers exactly the segments and the returned
directory is the file's owning (fetched) directory, holding the file under
the last segment; when all segments lead to directories, the terminal
directory is fetched once more (trace length = segments + 1) and returned
with no file and no pending capability; and a NotExist failure names exactly
the segment at the failing position of the input path. -/
theorem find_resolver_spec (d : DirView) (parts : List String) :
    (d.find parts).trace = List.range (d.find parts).trace.length
    ∧ 1 ≤ (d.find parts).trace.length
    ∧ (d.find parts).trace.length ≤ parts.length + 1
    ∧ (∀ dd fd, (d.find parts).res = .ok (dd, some fd) →
        (d.find parts).trace.length = parts.length ∧
        ∃ hne : parts ≠ [], getChild dd.children (parts.getLast hne) = some (.file fd))
    ∧ (∀ dd, (d.find parts).res = .ok (dd, none) →
        (d.find parts).trace.length = parts.length + 1 ∧ dd.cap = none)
    ∧ (∀ seg, (d.find parts).res = .error (.notExist seg) →
        parts[(d.find parts).trace.length - 1]? = some seg) := by
  induction parts generalizing d with
  | nil =>
    cases herr : d.fetch.err with
    | some e =>
      have hfind : d.find [] = ⟨.error (.fetchFailed e), d.fetch.dir, [0]⟩ := by
        simp only [DirView.find, herr]
      rw [hfind]
      refine ⟨by rfl, by simp, by simp, ?_, ?_, ?_⟩
      · intro dd fd h; simp at h
      · intro dd h; simp at h
      · intro seg h; simp at h
    | none =>
      have hfind : d.find [] = ⟨.ok (d.fetch.dir, none), d.fetch.dir, [0]⟩ := by
        simp only [DirView.find, herr]
      rw [hfind]
      refine ⟨by rfl, by simp, by simp, ?_, ?_, ?_⟩
      · intro dd fd h; simp at h
      · intro dd h
        simp only [Except.ok.injEq, Prod.mk.injEq, and_true] at h
        exact ⟨rfl, h ▸ fetch_ok_cap d herr⟩
      · intro seg h; simp at h
  | cons p rest ih =>
    cases herr : d.fetch.err with
    | some e =>
      have hfind : d.find (p :: rest) = ⟨.error (.fetchFailed e), d.fetch.dir, [0]⟩ := by
        simp only [DirView.find, herr]
      rw [hfind]
      refine ⟨by rfl, by simp, by simp, ?_, ?_, ?_⟩
      · intro dd fd h; simp at h
      · intro dd h; simp at h
      · intro seg h; simp at h
    | none =>
      cases hch : getChild d.fetch.dir.children p with
      | none =>
        have hfind : d.find (p :: rest) = ⟨.error (.notExist p), d.fetch.dir, [0]⟩ := by
          simp only [DirView.find, herr, hch]
        rw [hfind]
        refine ⟨by rfl, by simp, by simp, ?_, ?_, ?_⟩
        · intro dd fd h; simp at h
        · intro dd h; simp at h
        · intro seg h
          simp only [Except.error.injEq, GfsError.notExist.injEq] at h
          subst h
          simp
      | some child =>
        cases child with
        | file fd0 =>
          cases hrest : rest with
          | nil =>
            have hfind : d.find [p] = ⟨.ok (d.fetch.dir, some fd0), d.fetch.dir, [0]⟩ := by
              simp only [DirView.find, herr, hch]
              simp
            rw [hfind]
            refine ⟨by rfl, by simp, by simp, ?_, ?_, ?_⟩
            · intro dd fd h
              simp only [Except.ok.injEq, Prod.mk.injEq, Option.some.injEq] at h
              refine ⟨rfl, by simp, ?_⟩
              rw [← h.1, ← h.2]
              simpa using hch
            · intro dd h; simp at h
            · intro seg h; simp at h
          | cons q qs =>
            have hfind : d.find (p :: q :: qs) = ⟨.error (.notExist p), d.fetch.dir, [0]⟩ := by
              simp only [DirView.find, herr, hch]
              simp
            rw [hfind]
            refine ⟨by rfl, by simp, by simp, ?_, ?_, ?_⟩
            · intro dd fd h; simp at h
            · intro dd h; simp at h
            · intro seg h
              simp only [Except.error.injEq, GfsError.notExist.injEq] at h
              subst h
              simp
        | dir m c ch =>
          obtain ⟨ih1, ih2, ih3, ih4, ih5, ih6⟩ := ih ⟨m, c, ch⟩
          have hfind : d.find (p :: rest)
              = ⟨(DirView.find ⟨m, c, ch⟩ rest).res,
                 { d.fetch.dir with children := setChild d.fetch.dir.children p (DirView.find ⟨m, c, ch⟩ rest).tree.toNode },
                 0 :: ((DirView.find ⟨m, c, ch⟩ rest).trace.map (· + 1))⟩ := by
            simp only [DirView.find, herr, hch]
          rw [hfind]
          refine ⟨?_, by simp, ?_, ?_, ?_, ?_⟩
          · show 0 :: (DirView.find ⟨m, c, ch⟩ rest).trace.map (· + 1)
                = List.range (0 :: (DirView.find ⟨m, c, ch⟩ rest).trace.map (· + 1)).length
            rw [List.length_cons, List.length_map]
            rw [range_shift]
            rw [← ih1]
          · show (0 :: (DirView.find ⟨m, c, ch⟩ rest).trace.map (· + 1)).length
                ≤ (p :: rest).length + 1
            simp only [List.length_cons, List.length_map]
            simpa using ih3
          · intro dd fd h
            obtain ⟨hlen, hne, hlast⟩ := ih4 dd fd h
            refine ⟨?_, ?_⟩
            · simp [hlen]
            · refine ⟨by simp, ?_⟩
              rw [List.getLast_cons hne]
              exact hlast
          · intro dd h
            obtain ⟨hlen, hcap⟩ := ih5 dd h
            refine ⟨?_, hcap⟩
            simp [hlen]
          · intro seg h
            have h6 := ih6 seg h
            have hlen1 : 1 ≤ (DirView.find ⟨m, c, ch⟩ rest).trace.length := ih2
            show (p :: rest)[(0 :: (DirView.find ⟨m, c, ch⟩ rest).trace.map (· + 1)).length - 1]?
                = some seg
            simp only [List.length_cons, List.length_map, Nat.add_sub_cancel]
            rw [show (DirView.find ⟨m, c, ch⟩ rest).trace.length
                  = ((DirView.find ⟨m, c, ch⟩ rest).trace.length - 1) + 1 by omega]
            rw [List.getElem?_cons_succ]
            exact h6


/-- Witness for C1: resolving `1/2/x` in the fixture tree fetches depths
0, 1, 2 and fails naming the missing segment `x`. -/
theorem find_resolver_spec_witness :
    (exRoot.find ["1", "2", "x"]).trace
        = List.range (exRoot.find ["1", "2", "x"]).trace.length
    ∧ ["1", "2", "x"][(exRoot.find ["1", "2", "x"]).trace.length - 1]? = some "x" := by
  have h := find_resolver_spec exRoot ["1", "2", "x"]
  exact ⟨h.1, h.2.2.2.2.2 "x" rfl⟩


/-- Closed form of the ReadDir collection loop: it takes `min n (remaining)`
entries from the cursor, decrements `n` accordingly, and advances the
cursor. -/
theorem readDirLoop_eq (es : List DirEnt) :
    ∀ (n i : Nat), readDirLoop es n i
      = ((es.drop i).take n, n - min n (es.length - i), i + min n (es.length - i)) := by
  intro n
  induction n with
  | zero => intro i; simp [readDirLoop]
  | succ n ih =>
    intro i
    rw [readDirLoop]
    by_cases h : i < es.length
    · rw [dif_pos h, ih (i + 1)]
      rw [List.drop_eq_getElem_cons h, List.take_succ_cons]
      simp only [Prod.mk.injEq, List.get_eq_getElem]
      refine ⟨trivial, by omega, by omega⟩
    · rw [dif_neg h]
      have hdrop : es.drop i = [] := List.drop_eq_nil_of_le (by omega)
      simp only [hdrop, List.take_nil, Prod.mk.injEq]
      refine ⟨trivial, by omega, by omega⟩

/-- One bounded ReadDir call on an open handle: it returns the next
`min n (remaining)` entries, signals io.EOF exactly when fewer than `n`
entries remained, and advances the cursor by the number returned. -/
theorem readDir_pos_eq (info : FileInfo) (es : List DirEnt) (i : Nat) (n : Int)
    (hn : 0 < n) (hi : i ≤ es.length) :
    (DirHandle.mk info es i false).readDir n
      = ⟨(es.drop i).take n.toNat,
         if (es.length : Int) - i < n then some .eof else none,
         ⟨info, es, i + min n.toNat (es.length - i), false⟩⟩ := by
  have hcast : ((n.toNat : Int)) = n := Int.toNat_of_nonneg (le_of_lt hn)
  by_cases hA : es.length - i = 0
  · have hdrop : es.drop i = [] := List.drop_eq_nil_of_le (by omega)
    have hcond : (es.length : Int) - i < n := by omega
    simp [DirHandle.readDir, hdrop, hA, hcond]
  · have hlen : ¬((es.drop i).length = 0) := by
      rw [List.length_drop]; omega
    have hnot : ¬(n ≤ 0) := by omega
    simp only [DirHandle.readDir, Bool.false_eq_true, if_false, hlen, hnot, readDirLoop_eq]
    by_cases hc : n.toNat ≤ es.length - i
    · have h1 : n.toNat - min n.toNat (es.length - i) = 0 := by omega
      have h2 : ¬((es.length : Int) - i < n) := by omega
      simp [h1, h2]
    · have h1 : ¬(n.toNat - min n.toNat (es.length - i) = 0) := by omega
      have h2 : (es.length : Int) - i < n := by omega
      simp [h1, h2]

/-- A list of positive Ints has nonnegative sum. -/
theorem sum_nonneg_of_pos (ns : List Int) (h : ∀ x ∈ ns, 0 < x) : 0 ≤ ns.sum :=
  List.sum_nonneg fun x hx => le_of_lt (h x hx)

/-- Successive bounded ReadDir calls, from an arbitrary cursor: the batches
concatenate to the next `sum` entries, and call `j` signals io.EOF exactly
when the cumulative request through call `j` exceeds what remained at the
start. -/
theorem runReads_spec (info : FileInfo) (es : List DirEnt) :
    ∀ (ns : List Int) (i : Nat), (∀ x ∈ ns, 0 < x) → i ≤ es.length →
    (((runReads ⟨info, es, i, false⟩ ns).map Prod.fst).flatten
        = (es.drop i).take ns.sum.toNat)
    ∧ (∀ j, j < ns.length →
        ((runReads ⟨info, es, i, false⟩ ns).map Prod.snd)[j]?
          = some (if (es.length : Int) - i < (ns.take (j + 1)).sum
                  then some HErr.eof else none)) := by
  intro ns
  induction ns with
  | nil =>
    intro i _ _
    refine ⟨by simp [runReads], ?_⟩
    intro j hj
    simp at hj
  | cons n rest ih =>
    intro i hpos hi
    have hn : 0 < n := hpos n (List.mem_cons_self _ _)
    have hcast : ((n.toNat : Int)) = n := Int.toNat_of_nonneg (le_of_lt hn)
    have hrest : ∀ x ∈ rest, 0 < x := fun x hx => hpos x (List.mem_cons_of_mem _ hx)
    rw [runReads, readDir_pos_eq info es i n hn hi]
    have hi'le : i + min n.toNat (es.length - i) ≤ es.length := by omega
    obtain ⟨ihj, ihe⟩ := ih (i + min n.toNat (es.length - i)) hrest hi'le
    constructor
    · simp only [List.map_cons, List.flatten_cons]
      rw [ihj]
      have hdrop' : es.drop (i + min n.toNat (es.length - i)) = es.drop (i + n.toNat) := by
        rcases le_or_lt (i + n.toNat) es.length with hle | hlt
        · have : i + min n.toNat (es.length - i) = i + n.toNat := by omega
          rw [this]
        · rw [List.drop_eq_nil_of_le (by omega), List.drop_eq_nil_of_le (by omega)]
      rw [hdrop']
      have hsum : ((n :: rest).sum).toNat = n.toNat + rest.sum.toNat := by
        rw [List.sum_cons, ← hcast, ← Int.toNat_add (by omega) (sum_nonneg_of_pos rest hrest)]
      rw [hsum, List.take_add, ← List.drop_drop]
    · intro j hj
      cases j with
      | zero =>
        simp only [List.map_cons, List.getElem?_cons_zero, List.take_succ_cons,
          List.take_zero, List.sum_cons, List.sum_nil, Option.some.injEq]
        have hiff : ((es.length : Int) - i < n) ↔ ((es.length : Int) - i < n + 0) := by omega
        rw [if_congr hiff rfl rfl]
      | succ j =>
        simp only [List.map_cons, List.getElem?_cons_succ]
        rw [ihe j (by simpa using hj)]
        have hjr : j < rest.length := by simpa using hj
        have hne : rest.take (j + 1) ≠ [] := by
          refine List.length_pos.mp ?_
          rw [List.length_take]
          omega
        have hS : 0 < (rest.take (j + 1)).sum :=
          List.sum_pos _ (fun x hx => hrest x (List.mem_of_mem_take hx)) hne
        have hiff : ((es.length : Int) - ((i + min n.toNat (es.length - i) : Nat) : Int)
              < (rest.take (j + 1)).sum)
            ↔ ((es.length : Int) - i < ((n :: rest).take (j + 1 + 1)).sum) := by
          rw [List.take_succ_cons, List.sum_cons]
          omega
        exact congrArg some (if_congr hiff rfl rfl)

/-- Claim C4 (counterexample): over one entry, the calls ReadDir(1),
ReadDir(1) have positive requests summing to 2 > 1; the FIRST call exhausts
the sequence (it returns the last entry, and the first cumulative request
1 >= 1 reaches the entry count) yet returns no io.EOF — the signal only
arrives on the SECOND, empty call.  The concatenation itself matches the
unbounded read. -/
theorem readdir_eof_timing_counterexample :
    runReads exHandleA [1, 1] = [([exEntA], none), ([], some HErr.eof)]
    ∧ (exHandleA.readDir 0).out = [exEntA]
    ∧ (1 : Int) ≥ (exHandleA.entries.length : Int) := by
  decide

/-- Claim C4 (amended): for positive requests summing past the entry count,
the concatenation of the bounded batches equals the single unbounded read on
a fresh handle, in order; io.EOF is returned exactly on the calls whose
cumulative request STRICTLY exceeds the entry count — i.e. on the first call
that cannot be fully satisfied and all later calls — not necessarily on the
call that returns the last entry (a call whose request is exactly met
returns nil error even when it consumes the final entry). -/
theorem readdir_concat_amended (info : FileInfo) (es : List DirEnt) (ns : List Int)
    (hpos : ∀ x ∈ ns, 0 < x) (hsum : (es.length : Int) < ns.sum) :
    (((runReads ⟨info, es, 0, false⟩ ns).map Prod.fst).flatten
        = ((DirHandle.mk info es 0 false).readDir 0).out)
    ∧ (∀ j, j < ns.length →
        ((runReads ⟨info, es, 0, false⟩ ns).map Prod.snd)[j]?
          = some (if (es.length : Int) < (ns.take (j + 1)).sum
                  then some HErr.eof else none)) := by
  obtain ⟨h1, h2⟩ := runReads_spec info es ns 0 hpos (Nat.zero_le _)
  constructor
  · rw [h1]
    have hout : ((DirHandle.mk info es 0 false).readDir 0).out = es := by
      simp only [DirHandle.readDir]
      split_ifs <;> simp_all
    rw [hout, List.drop_zero]
    apply List.take_of_length_le
    have h0 : 0 ≤ ns.sum := sum_nonneg_of_pos ns hpos
    omega
  · intro j hj
    have h := h2 j hj
    simpa using h

/-- Witness for C4 amended: entries [a, a] read as ReadDir(1), ReadDir(2). -/
theorem readdir_concat_amended_witness :
    (((runReads ⟨exInfoD, [exEntA, exEntA], 0, false⟩ [1, 2]).map Prod.fst).flatten
        = ((DirHandle.mk exInfoD [exEntA, exEntA] 0 false).readDir 0).out)
    ∧ (∀ j, j < ([1, 2] : List Int).length →
        ((runReads ⟨exInfoD, [exEntA, exEntA], 0, false⟩ [1, 2]).map Prod.snd)[j]?
          = some (if (([exEntA, exEntA] : List DirEnt).length : Int)
                    < (([1, 2] : List Int).take (j + 1)).sum
                  then some HErr.eof else none)) :=
  readdir_concat_amended exInfoD [exEntA, exEntA] [1, 2] (by decide) (by decide)


/-- Entry processing of a concatenated stream runs sequentially; the first
error aborts. -/
theorem processEntries_append (dPath : List String) (ys : List TarEntry) :
    ∀ (xs : List TarEntry) (st : DirView),
    processEntries dPath st (xs ++ ys)
      = match processEntries dPath st xs with
        | (some err, s) => (some err, s)
        | (none, s) => processEntries dPath s ys := by
  intro xs
  induction xs with
  | nil => intro st; rfl
  | cons e rest ih =>
    intro st
    rw [List.cons_append]
    rw [show processEntries dPath st (e :: (rest ++ ys))
          = match processEntry st dPath e with
            | (some err, s) => (some err, s)
            | (none, s) => processEntries dPath s (rest ++ ys) from rfl]
    rw [show processEntries dPath st (e :: rest)
          = match processEntry st dPath e with
            | (some err, s) => (some err, s)
            | (none, s) => processEntries dPath s rest from rfl]
    rcases hpe : processEntry st dPath e with ⟨eo, st1⟩
    cases eo with
    | some err => rfl
    | none => exact ih st1

/-- Claim C5: importing the fixture archive (file `a` with bytes "a\n",
directory `c`, symlink `c/w` -> `../a`, all under top-level component `2`)
into the tree directory `1/2` succeeds, and afterwards `1/2/c/w` resolves to
the very same file value as `1/2/a` — the alias stores the found file node
itself — with the content bytes of `a`; and, in general, whenever the stream
reaches a link entry whose computed target does not resolve against the
global tree (NotExist), the whole import fails with that NotExist error. -/
theorem tarball_symlink_spec :
    (tarballToTree exRoot ["1", "2"] exTarball).1 = none
    ∧ foundFile (exImported.find (splitSlash "1/2/c/w"))
        = foundFile (exImported.find (splitSlash "1/2/a"))
    ∧ (foundFile (exImported.find (splitSlash "1/2/c/w"))).map (fun fd => fd.content)
        = some [97, 10]
    ∧ (∀ (root : DirView) (dPath : List String) (pre post : List TarEntry)
         (e : TarEntry) (te : Option String) (st1 : DirView) (seg : String),
        processEntries dPath (clearCapAt root dPath) pre = (none, st1) →
        (e.typeflag = .symlink ∨ e.typeflag = .link) →
        (st1.find (splitSlash (linkTarget dPath e))).res = .error (.notExist seg) →
        (tarballToTree root dPath ⟨pre ++ e :: post, te⟩).1 = some (.notExist seg)) := by
  refine ⟨by decide, by decide, by decide, ?_⟩
  intro root dPath pre post e te st1 seg hpre htyp htgt
  obtain ⟨tf, nm, ln, mt, ct⟩ := e
  have hpe : processEntry st1 dPath ⟨tf, nm, ln, mt, ct⟩
      = (some (.notExist seg),
         (st1.find (splitSlash (linkTarget dPath ⟨tf, nm, ln, mt, ct⟩))).tree) := by
    rcases htyp with h | h
    · have h' : tf = .symlink := h
      subst h'
      simp only [processEntry]
      rw [htgt]
    · have h' : tf = .link := h
      subst h'
      simp only [processEntry]
      rw [htgt]
  have hsteps : processEntries dPath (clearCapAt root dPath)
        (pre ++ ⟨tf, nm, ln, mt, ct⟩ :: post)
      = (some (.notExist seg),
         (st1.find (splitSlash (linkTarget dPath ⟨tf, nm, ln, mt, ct⟩))).tree) := by
    rw [processEntries_append, hpre]
    show processEntries dPath st1 ((⟨tf, nm, ln, mt, ct⟩ : TarEntry) :: post)
        = (some (.notExist seg),
           (st1.find (splitSlash (linkTarget dPath (⟨tf, nm, ln, mt, ct⟩ : TarEntry)))).tree)
    rw [show processEntries dPath st1 (⟨tf, nm, ln, mt, ct⟩ :: post)
          = match processEntry st1 dPath ⟨tf, nm, ln, mt, ct⟩ with
            | (some err, s) => (some err, s)
            | (none, s) => processEntries dPath s post from rfl]
    rw [hpe]
  simp only [tarballToTree, hsteps]

/-- Witness for C5 at the failing fixture archive: the symlink target `1/2/a`
does not exist, so the import fails with NotExist naming `a`. -/
theorem tarball_symlink_spec_witness :
    (tarballToTree exRoot ["1", "2"] exBadTarball).1 = some (.notExist "a") :=
  tarball_symlink_spec.2.2.2 exRoot ["1", "2"] [] []
    ⟨.symlink, "2/c/w", "../a", 5, []⟩ none (clearCapAt exRoot ["1", "2"]) "a"
    rfl (Or.inl rfl) rfl


/-- Unfolding capability-freedom on a directory view. -/
theorem capFreeB_mk (m : DirMeta) (c : FetchCap) (ch : Children) :
    (DirView.mk m c ch).capFreeB = (c.isNone && capFreeChildrenB ch) := rfl

/-- Children looked up in a capability-free children map are capability
free. -/
theorem capFree_getChild : ∀ (cs : Children), capFreeChildrenB cs = true →
    ∀ (k : String) (n : Node), getChild cs k = some n → n.capFreeB = true := by
  intro cs
  induction cs with
  | nil => intro _ k n h; simp [getChild] at h
  | cons kv rest ih =>
    obtain ⟨k1, v1⟩ := kv
    intro hcf k n h
    rw [show capFreeChildrenB ((k1, v1) :: rest) = (v1.capFreeB && capFreeChildrenB rest)
          from rfl, Bool.and_eq_true] at hcf
    rw [getChild] at h
    by_cases hk : k1 = k
    · rw [if_pos hk] at h
      cases h
      exact hcf.1
    · rw [if_neg hk] at h
      exact ih hcf.2 k n h

/-- Writing a capability-free node keeps the children map capability free. -/
theorem capFree_setChild : ∀ (cs : Children) (k : String) (n : Node),
    capFreeChildrenB cs = true → n.capFreeB = true →
    capFreeChildrenB (setChild cs k n) = true := by
  intro cs
  induction cs with
  | nil =>
    intro k n _ hn
    rw [setChild, show capFreeChildrenB [(k, n)] = (n.capFreeB && capFreeChildrenB [])
          from rfl, hn]
    rfl
  | cons kv rest ih =>
    obtain ⟨k1, v1⟩ := kv
    intro k n hcf hn
    rw [show capFreeChildrenB ((k1, v1) :: rest) = (v1.capFreeB && capFreeChildrenB rest)
          from rfl, Bool.and_eq_true] at hcf
    rw [setChild]
    by_cases hk : k1 = k
    · rw [if_pos hk]
      rw [show capFreeChildrenB ((k1, n) :: rest) = (n.capFreeB && capFreeChildrenB rest)
            from rfl, hn, hcf.2]
      rfl
    · rw [if_neg hk]
      rw [show capFreeChildrenB ((k1, v1) :: setChild rest k n)
            = (v1.capFreeB && capFreeChildrenB (setChild rest k n)) from rfl,
          hcf.1, ih k n hcf.2 hn]
      rfl

/-- A capability-free directory has no capability and capability-free
children. -/
theorem capFree_split (d : DirView) (h : d.capFreeB = true) :
    d.cap = none ∧ capFreeChildrenB d.children = true := by
  obtain ⟨m, c, ch⟩ := d
  rw [capFreeB_mk, Bool.and_eq_true] at h
  exact ⟨Option.isNone_iff_eq_none.mp h.1, h.2⟩

/-- fetch() on a capability-free directory is a no-op that invokes nothing. -/
theorem fetch_of_capFree (d : DirView) (h : d.capFreeB = true) :
    d.fetch = ⟨d, none, false⟩ := by
  obtain ⟨m, c, ch⟩ := d
  obtain ⟨hc, _⟩ := capFree_split _ h
  rw [show (DirView.mk m c ch).cap = c from rfl] at hc
  subst hc
  rfl

/-- Rewriting a child to the value it already holds changes nothing. -/
theorem setChild_getChild_self : ∀ (cs : Children) (k : String) (n : Node),
    getChild cs k = some n → setChild cs k n = cs := by
  intro cs
  induction cs with
  | nil => intro k n h; simp [getChild] at h
  | cons kv rest ih =>
    obtain ⟨k1, v1⟩ := kv
    intro k n h
    rw [getChild] at h
    rw [setChild]
    by_cases hk : k1 = k
    · rw [if_pos hk] at h
      cases h
      rw [if_pos hk]
    · rw [if_neg hk] at h
      rw [if_neg hk, ih k n h]

/-- Resolution through a capability-free tree mutates nothing (no fetch ever
populates or clears anything) and only hands out capability-free
directories. -/
theorem find_capFree (parts : List String) : ∀ (d : DirView), d.capFreeB = true →
    (d.find parts).tree = d
    ∧ (∀ dd fdo, (d.find parts).res = .ok (dd, fdo) → dd.capFreeB = true) := by
  induction parts with
  | nil =>
    intro d h
    have hf := fetch_of_capFree d h
    constructor
    · simp only [DirView.find, hf]
    · intro dd fdo hres
      simp only [DirView.find, hf] at hres
      obtain ⟨h1, _⟩ := Prod.mk.injEq .. ▸ (Except.ok.injEq .. ▸ hres)
      exact h1 ▸ h
  | cons p rest ih =>
    intro d h
    have hf := fetch_of_capFree d h
    obtain ⟨_, hchildren⟩ := capFree_split d h
    cases hg : getChild d.children p with
    | none =>
      constructor
      · simp only [DirView.find, hf, hg]
      · intro dd fdo hres
        simp only [DirView.find, hf, hg] at hres
        simp at hres
    | some child =>
      cases child with
      | file fd0 =>
        cases hrest : rest with
        | nil =>
          constructor
          · simp only [DirView.find, hf, hg]
            simp
          · intro dd fdo hres
            simp only [DirView.find, hf, hg] at hres
            obtain ⟨h1, _⟩ := Prod.mk.injEq .. ▸ (Except.ok.injEq .. ▸ hres)
            exact h1 ▸ h
        | cons q qs =>
          constructor
          · simp only [DirView.find, hf, hg]
            simp
          · intro dd fdo hres
            simp only [DirView.find, hf, hg] at hres
            simp at hres
      | dir m2 c2 ch2 =>
        have hcf2 : (DirView.mk m2 c2 ch2).capFreeB = true :=
          capFree_getChild d.children hchildren p _ hg
        obtain ⟨iht, ihr⟩ := ih ⟨m2, c2, ch2⟩ hcf2
        constructor
        · simp only [DirView.find, hf, hg]
          rw [iht]
          rw [show (DirView.mk m2 c2 ch2).toNode = Node.dir m2 c2 ch2 from rfl]
          rw [setChild_getChild_self d.children p _ hg]
        · intro dd fdo hres
          simp only [DirView.find, hf, hg] at hres
          exact ihr dd fdo hres


/-- addFile writes a file node, preserving capability-freedom. -/
theorem addFile_capFree (d : DirView) (name : String) (opts : List FileOptD)
    (h : d.capFreeB = true) : (d.addFile name opts).capFreeB = true := by
  obtain ⟨m, c, ch⟩ := d
  obtain ⟨hc, hch⟩ := capFree_split _ h
  rw [show (DirView.mk m c ch).cap = c from rfl] at hc
  subst hc
  rw [DirView.addFile, capFreeB_mk]
  rw [capFree_setChild _ _ _ hch (by rfl)]
  rfl

/-- makeDirs (with a trailing action that preserves capability-freedom)
creates only capability-free directories. -/
theorem makeDirsAnd_capFree (parts : List String) :
    ∀ (d : DirView) (mt : Int) (k : DirView → DirView),
    d.capFreeB = true → (∀ x, x.capFreeB = true → (k x).capFreeB = true) →
    ∀ r, makeDirsAnd d parts mt k = some r → r.capFreeB = true := by
  induction parts with
  | nil =>
    intro d mt k hd hk r h
    rw [makeDirsAnd] at h
    cases h
    exact hk d hd
  | cons p rest ih =>
    intro d mt k hd hk r h
    obtain ⟨hc, hch⟩ := capFree_split d hd
    rw [makeDirsAnd] at h
    cases hg : getChild d.children p with
    | none =>
      simp only [hg] at h
      cases hsub : makeDirsAnd ⟨childDirMeta d.meta p mt, none, []⟩ rest mt k with
      | none => rw [hsub] at h; simp at h
      | some sub =>
        rw [hsub] at h
        simp only [Option.map_some'] at h
        cases h
        have hsubcf : sub.capFreeB = true := ih _ mt k (by rfl) hk sub hsub
        obtain ⟨m, c, ch⟩ := d
        rw [show (DirView.mk m c ch).cap = c from rfl] at hc
        subst hc
        rw [show ({ DirView.mk m none ch with
              children := setChild (DirView.mk m none ch).children p sub.toNode })
            = DirView.mk m none (setChild ch p sub.toNode) from rfl, capFreeB_mk]
        rw [capFree_setChild _ _ _ hch ?hn]
        · rfl
        case hn =>
          obtain ⟨m2, c2, ch2⟩ := sub
          exact hsubcf
    | some child =>
      cases child with
      | file fd0 =>
        simp only [hg] at h
        exact Option.noConfusion h
      | dir m2 c2 ch2 =>
        simp only [hg] at h
        cases hsub : makeDirsAnd ⟨m2, c2, ch2⟩ rest mt k with
        | none => rw [hsub] at h; simp at h
        | some sub =>
          rw [hsub] at h
          simp only [Option.map_some'] at h
          cases h
          have hcf2 : (DirView.mk m2 c2 ch2).capFreeB = true :=
            capFree_getChild d.children hch p _ hg
          have hsubcf : sub.capFreeB = true := ih _ mt k hcf2 hk sub hsub
          obtain ⟨m, c, ch⟩ := d
          rw [show (DirView.mk m c ch).cap = c from rfl] at hc
          subst hc
          rw [show ({ DirView.mk m none ch with
                children := setChild (DirView.mk m none ch).children p sub.toNode })
              = DirView.mk m none (setChild ch p sub.toNode) from rfl, capFreeB_mk]
          rw [capFree_setChild _ _ _ hch ?hn2]
          · rfl
          case hn2 =>
            obtain ⟨m3, c3, ch3⟩ := sub
            exact hsubcf

/-- updateDirAt with a capability-freedom-preserving action preserves
capability-freedom of the whole tree. -/
theorem updateDirAt_capFree (path : List String) :
    ∀ (d : DirView) (f : DirView → Option DirView),
    d.capFreeB = true →
    (∀ x, x.capFreeB = true → ∀ r, f x = some r → r.capFreeB = true) →
    ∀ r, updateDirAt d path f = some r → r.capFreeB = true := by
  induction path with
  | nil =>
    intro d f hd hf r h
    rw [updateDirAt] at h
    exact hf d hd r h
  | cons p rest ih =>
    intro d f hd hf r h
    obtain ⟨hc, hch⟩ := capFree_split d hd
    rw [updateDirAt] at h
    cases hg : getChild d.children p with
    | none =>
      simp only [hg] at h
      exact Option.noConfusion h
    | some child =>
      cases child with
      | file fd0 =>
        simp only [hg] at h
        exact Option.noConfusion h
      | dir m2 c2 ch2 =>
        simp only [hg] at h
        cases hsub : updateDirAt ⟨m2, c2, ch2⟩ rest f with
        | none => rw [hsub] at h; simp at h
        | some sub =>
          rw [hsub] at h
          simp only [Option.map_some'] at h
          cases h
          have hcf2 : (DirView.mk m2 c2 ch2).capFreeB = true :=
            capFree_getChild d.children hch p _ hg
          have hsubcf : sub.capFreeB = true := ih _ f hcf2 hf sub hsub
          obtain ⟨m, c, ch⟩ := d
          rw [show (DirView.mk m c ch).cap = c from rfl] at hc
          subst hc
          rw [show ({ DirView.mk m none ch with
                children := setChild (DirView.mk m none ch).children p sub.toNode })
              = DirView.mk m none (setChild ch p sub.toNode) from rfl, capFreeB_mk]
          rw [capFree_setChild _ _ _ hch ?hn3]
          · rfl
          case hn3 =>
            obtain ⟨m3, c3, ch3⟩ := sub
            exact hsubcf


/-- Inserting a capability-free child preserves capability-freedom. -/
theorem insChild_capFree (dd : DirView) (k : String) (n : Node)
    (hdd : dd.capFreeB = true) (hn : n.capFreeB = true) :
    ({ dd with children := setChild dd.children k n } : DirView).capFreeB = true := by
  obtain ⟨m, c, ch⟩ := dd
  obtain ⟨hc, hch⟩ := capFree_split _ hdd
  rw [show (DirView.mk m c ch).cap = c from rfl] at hc
  subst hc
  rw [show ({ DirView.mk m none ch with
        children := setChild (DirView.mk m none ch).children k n })
      = DirView.mk m none (setChild ch k n) from rfl, capFreeB_mk]
  rw [capFree_setChild _ _ _ hch hn]
  rfl

/-- Processing one tar entry preserves capability-freedom of the global
tree (the importer attaches no capabilities; link aliasing only copies
capability-free nodes). -/
theorem processEntry_capFree (root : DirView) (dPath : List String) (e : TarEntry)
    (h : root.capFreeB = true) : (processEntry root dPath e).2.capFreeB = true := by
  obtain ⟨tf, nm, ln, mt, ct⟩ := e
  cases tf with
  | reg =>
    simp only [processEntry]
    split
    next r hupd =>
      exact updateDirAt_capFree dPath root _ h
        (fun x hx r' hr' => makeDirsAnd_capFree _ x _ _ hx
          (fun y hy => addFile_capFree y _ _ hy) r' hr') r hupd
    next hupd => exact h
  | dir =>
    simp only [processEntry]
    split
    · exact h
    · split
      next r hupd =>
        exact updateDirAt_capFree dPath root _ h
          (fun x hx r' hr' => makeDirsAnd_capFree _ x _ _ hx (fun y hy => hy) r' hr') r hupd
      next hupd => exact h
  | link =>
    have h1 := find_capFree (splitSlash (linkTarget dPath ⟨.link, nm, ln, mt, ct⟩)) root h
    simp only [processEntry]
    split
    next err heq =>
      show (root.find (splitSlash (linkTarget dPath ⟨.link, nm, ln, mt, ct⟩))).tree.capFreeB = true
      rw [h1.1]
      exact h
    next targetDir targetFile heq =>
      rw [h1.1]
      have htd : targetDir.capFreeB = true := h1.2 targetDir targetFile heq
      have h2 := find_capFree
        (splitSlash (filepathClean
          (filepathSplit (linkName dPath ⟨.link, nm, ln, mt, ct⟩)).1)) root h
      split
      next err2 heq2 =>
        rw [h2.1]
        exact h
      next ld lfile heq2 =>
        rw [h2.1]
        split
        next r hupd =>
          refine updateDirAt_capFree _ root _ h ?_ r hupd
          intro x hx r' hr'
          cases targetFile with
          | some tfile =>
            simp only at hr'
            cases hr'
            exact insChild_capFree x _ _ hx rfl
          | none =>
            simp only at hr'
            cases hr'
            exact insChild_capFree x _ _ hx htd
        next hupd => exact h
  | symlink =>
    have h1 := find_capFree (splitSlash (linkTarget dPath ⟨.symlink, nm, ln, mt, ct⟩)) root h
    simp only [processEntry]
    split
    next err heq =>
      show (root.find (splitSlash (linkTarget dPath ⟨.symlink, nm, ln, mt, ct⟩))).tree.capFreeB = true
      rw [h1.1]
      exact h
    next targetDir targetFile heq =>
      rw [h1.1]
      have htd : targetDir.capFreeB = true := h1.2 targetDir targetFile heq
      have h2 := find_capFree
        (splitSlash (filepathClean
          (filepathSplit (linkName dPath ⟨.symlink, nm, ln, mt, ct⟩)).1)) root h
      split
      next err2 heq2 =>
        rw [h2.1]
        exact h
      next ld lfile heq2 =>
        rw [h2.1]
        split
        next r hupd =>
          refine updateDirAt_capFree _ root _ h ?_ r hupd
          intro x hx r' hr'
          cases targetFile with
          | some tfile =>
            simp only at hr'
            cases hr'
            exact insChild_capFree x _ _ hx rfl
          | none =>
            simp only at hr'
            cases hr'
            exact insChild_capFree x _ _ hx htd
        next hupd => exact h
  | other =>
    exact h


/-- Sequential entry processing preserves capability-freedom, whether or not
it aborts with an error. -/
theorem processEntries_capFree (dPath : List String) :
    ∀ (entries : List TarEntry) (st : DirView), st.capFreeB = true →
    (processEntries dPath st entries).2.capFreeB = true := by
  intro entries
  induction entries with
  | nil => intro st h; exact h
  | cons e rest ih =>
    intro st h
    rw [show processEntries dPath st (e :: rest)
          = match processEntry st dPath e with
            | (some err, s) => (some err, s)
            | (none, s) => processEntries dPath s rest from rfl]
    have hpe := processEntry_capFree st dPath e h
    rcases hq : processEntry st dPath e with ⟨eo, st1⟩
    rw [hq] at hpe
    cases eo with
    | some err => exact hpe
    | none => exact ih st1 hpe

/-- No directory reachable in a capability-free tree has an attached
capability. -/
theorem capAt_of_capFree (path : List String) : ∀ (root : DirView),
    root.capFreeB = true → ∀ c, capAt root path ≠ some (some c) := by
  induction path with
  | nil =>
    intro root h c
    obtain ⟨hc, _⟩ := capFree_split root h
    simp [capAt, hc]
  | cons p rest ih =>
    intro root h c
    obtain ⟨_, hch⟩ := capFree_split root h
    rw [capAt]
    cases hg : getChild root.children p with
    | none => simp
    | some child =>
      cases child with
      | file fd => simp
      | dir m2 c2 ch2 => exact ih ⟨m2, c2, ch2⟩ (capFree_getChild _ hch p _ hg) c

/-- The tree tarballToTree leaves behind is exactly the one produced by
processing the entries after the unconditional initial `d.fetchFn = nil`
(clearCapAt) — also when the import returns an error. -/
theorem tarballToTree_state (root : DirView) (dPath : List String) (tb : Tarball) :
    (tarballToTree root dPath tb).2
      = (processEntries dPath (clearCapAt root dPath) tb.entries).2 := by
  simp only [tarballToTree]
  rcases h : processEntries dPath (clearCapAt root dPath) tb.entries with ⟨eo, st⟩
  cases eo with
  | some err => simp [h]
  | none =>
    cases hre : tb.readErr with
    | some m => simp [h, hre]
    | none => simp [h, hre]

/-- Claim C10: tarballToTree clears the import directory's deferred-fetch
capability unconditionally before processing any entry (the resulting tree is
that of processing the stream from the cleared tree, for error and success
alike); consequently — for a tree that carries no other capabilities, the
only situation the value model can express faithfully, since a capability
closure identity in Go is not data — after an import, failed or not, the
whole tree is capability free, in particular no capability is attached at
the path of the import directory, and resolving any path afterwards changes
nothing: a failed bulk import is never retried by a later resolution. -/
theorem tarball_clears_capability (root : DirView) (dPath : List String) (tb : Tarball)
    (hfree : (clearCapAt root dPath).capFreeB = true) :
    (tarballToTree root dPath tb).2.capFreeB = true
    ∧ (∀ c, capAt (tarballToTree root dPath tb).2 dPath ≠ some (some c))
    ∧ (∀ parts, ((tarballToTree root dPath tb).2.find parts).tree
        = (tarballToTree root dPath tb).2)
    ∧ (tarballToTree root dPath tb).2
        = (processEntries dPath (clearCapAt root dPath) tb.entries).2 := by
  have hstate := tarballToTree_state root dPath tb
  have hcf : (tarballToTree root dPath tb).2.capFreeB = true := by
    rw [hstate]
    exact processEntries_capFree dPath tb.entries _ hfree
  exact ⟨hcf, fun c => capAt_of_capFree dPath _ hcf c,
    fun parts => (find_capFree parts _ hcf).1, hstate⟩

/-- Witness for C10 on the failing fixture import: the import errors, yet the
tree is capability free and nothing is attached at `1/2` afterwards. -/
theorem tarball_clears_capability_witness :
    (clearCapAt exRoot ["1", "2"]).capFreeB = true
    ∧ (tarballToTree exRoot ["1", "2"] exBadTarball).2.capFreeB = true
    ∧ (∀ c, capAt (tarballToTree exRoot ["1", "2"] exBadTarball).2 ["1", "2"]
        ≠ some (some c)) := by
  have h := tarball_clears_capability exRoot ["1", "2"] exBadTarball (by decide)
  exact ⟨by decide, h.1, h.2.1⟩

end Githubfs
